import Mathlib

/-!
Verification of the correction-resolution core of the schedule-corrections
application: exact decimal scores with the `normalize_score` rounding rule,
`Item` save/clean validation, the `Correction` score-uniqueness persistence
hook, the `apply_correction` state machine and the read-only resolver.

The store is shallowly embedded: Decimal values become exact
mantissa/exponent pairs over `ℚ`, Django model rows become structures,
querysets become lists (kept in the store's default ordering), and each
database write is explicit state passing.
-/

namespace VstuCorrections

/-- An exact decimal number as Python's `Decimal` represents it:
`val = mant / 10 ^ fexp`, where `fexp` is the number of fractional digits
of the representation (so `0.50` is `⟨50, 2⟩` and is distinct from
`0.5 = ⟨5, 1⟩` even though the two have equal value, exactly as
`Decimal.as_tuple` distinguishes them). -/
structure Dec where
  mant : Int
  fexp : Nat
deriving DecidableEq, Repr

/-- Numeric value of a decimal. -/
def Dec.val (d : Dec) : ℚ := (d.mant : ℚ) / (10 : ℚ) ^ d.fexp

/-- `Decimal.quantize(Decimal('0.1'), rounding=ROUND_HALF_UP)` expressed on
the value: the number of tenths, rounding ties away from zero. -/
def roundHalfUpTenths (q : ℚ) : Int :=
  if 0 ≤ q then ⌊q * 10 + 1 / 2⌋ else -⌊-q * 10 + 1 / 2⌋

namespace ItemManager

/-- `ItemManager.normalize_score`: quantize to one fractional digit with
ROUND_HALF_UP, then clamp the result into `[0.0, 1.0]`
(`models.py` lines 53-70). -/
def normalize_score (d : Dec) : Dec :=
  let t := roundHalfUpTenths d.val
  let t := if t < 0 then 0 else if 10 < t then 10 else t
  ⟨t, 1⟩

end ItemManager

/-- The specification's wording of normalization, written independently of
the source: round half-up to the nearest 0.1, then clamp to `[0.0, 1.0]`
(used to compare the code's `normalize_score` against the spec). -/
def specNormalize (q : ℚ) : ℚ :=
  min 1 (max 0 ((⌊q * 10 + 1 / 2⌋ : ℚ) / 10))

/-- The `ValidationError` cases raised by `Item.clean` for a bad score. -/
inductive ValidationError where
  | scorePrecision
  | scoreStep
  | scoreRange
deriving DecidableEq, Repr

/-- The `Item` model row (`models.py` lines 73-155): a text value with an
optional decimal score and the `approved` / `suggested_by_reviewer` flags.
Context associations are not needed by any claim and are omitted. -/
structure Item where
  id : Nat
  value : String
  score : Option Dec
  approved : Bool
  suggested_by_reviewer : Bool
deriving DecidableEq, Repr

/-- `Item.clean` (`models.py` lines 109-143): when a score is set, reject a
representation with more than one fractional digit, a value that is not a
multiple of 0.1, or a value outside `[0.0, 1.0]`; otherwise normalize the
score in place. -/
def Item.clean (i : Item) : Except ValidationError Item :=
  match i.score with
  | none => .ok i
  | some d =>
    if 1 < d.fexp then .error .scorePrecision
    else if (d.val * 10).den ≠ 1 then .error .scoreStep
    else if d.val < 0 ∨ 1 < d.val then .error .scoreRange
    else .ok { i with score := some (ItemManager.normalize_score d) }

/-- The in-place mutations `Item.save` performs before validating
(`models.py` lines 145-151): force `suggested_by_reviewer = True` and
normalize a set score. -/
def Item.presave (i : Item) : Item :=
  let i := { i with suggested_by_reviewer := true }
  match i.score with
  | none => i
  | some d => { i with score := some (ItemManager.normalize_score d) }

/-- `Item.save` (`models.py` lines 145-155): force the reviewer flag,
normalize the score, then run `full_clean` and persist. -/
def Item.save (i : Item) : Except ValidationError Item :=
  (Item.presave i).clean

/-- `Correction.STATUS_PENDING`. -/
def STATUS_PENDING : Nat := 0

/-- `Correction.STATUS_APPROVED`. -/
def STATUS_APPROVED : Nat := 1

/-- `Correction.STATUS_INVALID`. -/
def STATUS_INVALID : Nat := 2

/-- The `Correction` model row (`models.py` lines 225-266): a subject item,
the many-to-many hypothesis set (kept as a list in attachment order; reads
apply the `Item` model's default `-score` ordering), a status and a scope. -/
structure Correction where
  cid : Nat
  subject : Item
  hyps : List Item
  status : Nat
  scope_id : Int
deriving DecidableEq, Repr

/-- Sort key used by `order_by('-score')`: a null score sorts after every
real score in descending order, so it maps to `⊥`. -/
def scoreKey (i : Item) : WithBot ℚ :=
  match i.score with
  | none => ⊥
  | some d => (d.val : WithBot ℚ)

/-- `a` may come no later than `b` in descending score order. -/
def hypGE (a b : Item) : Prop := scoreKey b ≤ scoreKey a

instance : DecidableRel hypGE :=
  fun a b => inferInstanceAs (Decidable (scoreKey b ≤ scoreKey a))

instance : IsTotal Item hypGE :=
  ⟨fun a b => (le_total (scoreKey b) (scoreKey a)).imp id id⟩

instance : IsTrans Item hypGE :=
  ⟨fun _ _ _ hab hbc => le_trans hbc hab⟩

/-- `order_by('-score')` on a hypothesis set: stable descending sort with
null scores last. -/
def sortByScoreDesc (l : List Item) : List Item := l.insertionSort hypGE

/-- `hypotheses.filter(approved=True).first()` under the model's default
`-score` ordering. -/
def firstApproved (l : List Item) : Option Item :=
  (sortByScoreDesc l).find? (·.approved)

/-- `hypotheses.order_by('-score').first()`. -/
def bestByScore (l : List Item) : Option Item :=
  (sortByScoreDesc l).head?

/-- The walk of `Correction._ensure_unique_scores` (`models.py` lines
284-317): over the hypotheses in descending score order, collect the ids to
detach — an id already seen, or a non-null score whose normalized value was
already kept (null scores are skipped). -/
def dedupWalk : List Item → List Nat → List Int → List Nat
  | [], _, _ => []
  | h :: t, itemsSeen, scoresSeen =>
    if h.id ∈ itemsSeen then h.id :: dedupWalk t itemsSeen scoresSeen
    else
      match h.score with
      | none => dedupWalk t (h.id :: itemsSeen) scoresSeen
      | some s =>
        if (ItemManager.normalize_score s).mant ∈ scoresSeen then
          h.id :: dedupWalk t (h.id :: itemsSeen) scoresSeen
        else
          dedupWalk t (h.id :: itemsSeen) ((ItemManager.normalize_score s).mant :: scoresSeen)

/-- `Correction._ensure_unique_scores`: detach every hypothesis whose id the
walk collected. -/
def Correction.ensureUniqueScores (c : Correction) : Correction :=
  let toRemove := dedupWalk (sortByScoreDesc c.hyps) [] []
  { c with hyps := c.hyps.filter (fun h => h.id ∉ toRemove) }

/-- `Correction.save` (`models.py` lines 277-282): persist, then run the
score-uniqueness hook. -/
def Correction.save (c : Correction) : Correction :=
  c.ensureUniqueScores

/-- `correction.hypotheses.add(hyp)`: a relational add — a no-op when the
id is already attached, otherwise append. -/
def Correction.attach (c : Correction) (h : Item) : Correction :=
  if c.hyps.any (fun x => x.id = h.id) then c
  else { c with hyps := c.hyps ++ [h] }

/-- Python's `max(hypotheses, key=lambda h: h.score)`: the first item whose
score no later item strictly exceeds. -/
def pyMax (l : List Item) : Option Item :=
  match l with
  | [] => none
  | a :: t => some (t.foldl (fun best h => if scoreKey best < scoreKey h then h else best) a)

/-- Write one saved correction back into the store, identified by `cid`. -/
def updateStore (s : List Correction) (c : Correction) : List Correction :=
  s.map (fun x => if x.cid = c.cid then c else x)

/-- `current_score` of the APPROVED branch: the approved hypothesis's score,
or negative infinity (`⊥`) when there is none. -/
def currentScoreOf (approved_hyp : Option Item) : WithBot ℚ :=
  match approved_hyp with
  | some a => scoreKey a
  | none => ⊥

/-- `[h for h in hypotheses if h.score > current_score]`. -/
def betterThan (current_score : WithBot ℚ) (hypotheses : List Item) : List Item :=
  hypotheses.filter (fun h => decide (current_score < scoreKey h))

/-- `apply_correction` (`views.py` lines 464-534): the resolution state
machine. The store (the list of all corrections, in the default
`-updated_at` ordering) is passed and returned explicitly. -/
def apply_correction (store : List Correction) (subject : Item)
    (hypotheses : List Item) (scope_id : Int) : Item × List Correction :=
  match (store.filter (fun c =>
    decide (c.subject.value = subject.value) && decide (c.scope_id = scope_id))).head? with
  | none =>
    if hypotheses.isEmpty then (subject, store)
    else ((pyMax hypotheses).getD subject, store)
  | some correction =>
    if correction.status = STATUS_APPROVED then
      let approved_hyp := firstApproved correction.hyps
      let new_better := betterThan (currentScoreOf approved_hyp) hypotheses
      let correction' :=
        if new_better.isEmpty then correction
        else Correction.save
          { new_better.foldl Correction.attach correction with status := STATUS_PENDING }
      let store' := if new_better.isEmpty then store else updateStore store correction'
      match approved_hyp with
      | some a => (a, store')
      | none => ((bestByScore correction'.hyps).getD subject, store')
    else if correction.status = STATUS_PENDING then
      let correction' := Correction.save (hypotheses.foldl Correction.attach correction)
      ((bestByScore correction'.hyps).getD subject, updateStore store correction')
    else if correction.status = STATUS_INVALID then
      let resetHyps := correction.hyps.map (fun h =>
        if h.suggested_by_reviewer then
          Item.presave { h with score := some ⟨0, 0⟩, approved := false }
        else h)
      let correction' := Correction.save
        { hypotheses.foldl Correction.attach { correction with hyps := resetHyps } with
            status := STATUS_PENDING }
      let store' := updateStore store correction'
      if hypotheses.isEmpty then (subject, store')
      else ((pyMax hypotheses).getD subject, store')
    else (subject, store)

/-- `get_approved_correction_for_subject` (`views.py` lines 537-557): the
read-only resolver; the unchanged store is returned alongside the value to
make the absence of writes explicit. -/
def get_approved_correction_for_subject (store : List Correction)
    (subject_value : String) (scope_id : Int) : String × List Correction :=
  match (store.filter (fun c =>
    decide (c.subject.value = subject_value) && decide (c.scope_id = scope_id) &&
      decide (c.status = STATUS_APPROVED))).head? with
  | some correction =>
    match firstApproved correction.hyps with
    | some a => (a.value, store)
    | none => (subject_value, store)
  | none => (subject_value, store)

/-! ### Basic facts about `normalize_score` -/

theorem Dec.val_tenths (m : Int) : Dec.val ⟨m, 1⟩ = (m : ℚ) / 10 := by
  simp [Dec.val]

theorem normalize_score_mant_nonneg (d : Dec) :
    0 ≤ (ItemManager.normalize_score d).mant := by
  unfold ItemManager.normalize_score
  dsimp only
  split
  · exact le_refl 0
  · split
    · norm_num
    · omega

theorem normalize_score_mant_le_ten (d : Dec) :
    (ItemManager.normalize_score d).mant ≤ 10 := by
  unfold ItemManager.normalize_score
  dsimp only
  split
  · norm_num
  · split
    · exact le_refl 10
    · omega

theorem normalize_score_fexp (d : Dec) : (ItemManager.normalize_score d).fexp = 1 :=
  rfl

theorem normalize_score_val_nonneg (d : Dec) :
    0 ≤ (ItemManager.normalize_score d).val := by
  have h := normalize_score_mant_nonneg d
  have : ItemManager.normalize_score d = ⟨(ItemManager.normalize_score d).mant, 1⟩ := rfl
  rw [this, Dec.val_tenths]
  positivity

theorem normalize_score_val_le_one (d : Dec) :
    (ItemManager.normalize_score d).val ≤ 1 := by
  have h := normalize_score_mant_le_ten d
  have heq : ItemManager.normalize_score d = ⟨(ItemManager.normalize_score d).mant, 1⟩ := rfl
  rw [heq, Dec.val_tenths]
  rw [div_le_one (by norm_num)]
  exact_mod_cast h

theorem roundHalfUpTenths_intCast (m : Int) (hm : 0 ≤ m) :
    roundHalfUpTenths ((m : ℚ) / 10) = m := by
  unfold roundHalfUpTenths
  have hq : (0 : ℚ) ≤ (m : ℚ) / 10 := by positivity
  rw [if_pos hq]
  have h1 : (m : ℚ) / 10 * 10 + 1 / 2 = 1 / 2 + (m : ℚ) := by ring
  rw [h1, Int.floor_add_int]
  norm_num

theorem normalize_score_idem (d : Dec) :
    ItemManager.normalize_score (ItemManager.normalize_score d) =
      ItemManager.normalize_score d := by
  have h0 := normalize_score_mant_nonneg d
  have h10 := normalize_score_mant_le_ten d
  have heq : ItemManager.normalize_score d = ⟨(ItemManager.normalize_score d).mant, 1⟩ := rfl
  set m := (ItemManager.normalize_score d).mant with hm
  rw [heq]
  show ItemManager.normalize_score ⟨m, 1⟩ = _
  unfold ItemManager.normalize_score
  rw [Dec.val_tenths, roundHalfUpTenths_intCast m h0]
  dsimp only
  rw [if_neg (by omega), if_neg (by omega)]

theorem normalize_score_val_eq_spec (d : Dec) :
    (ItemManager.normalize_score d).val = specNormalize d.val := by
  unfold ItemManager.normalize_score specNormalize
  set q := d.val with hq
  by_cases h0 : 0 ≤ q
  · have ht : roundHalfUpTenths q = ⌊q * 10 + 1 / 2⌋ := by
      unfold roundHalfUpTenths; rw [if_pos h0]
    set t := ⌊q * 10 + 1 / 2⌋ with htdef
    have htn : 0 ≤ t := by
      rw [htdef]
      rw [Int.le_floor]
      push_cast
      nlinarith
    rw [ht]
    dsimp only
    rw [if_neg (by omega)]
    have hmax : max 0 ((t : ℚ) / 10) = (t : ℚ) / 10 := by
      rw [max_eq_right]; positivity
    rw [hmax]
    by_cases h10 : 10 < t
    · rw [if_pos h10, Dec.val_tenths]
      rw [min_eq_left]
      · norm_num
      · rw [le_div_iff₀ (by norm_num : (0:ℚ) < 10)]
        have : (10 : ℚ) < (t : ℚ) := by exact_mod_cast h10
        linarith
    · rw [if_neg h10, Dec.val_tenths]
      rw [min_eq_right]
      rw [div_le_one (by norm_num)]
      have : (t : ℚ) ≤ 10 := by exact_mod_cast not_lt.mp h10
      linarith
  · push_neg at h0
    have ht : roundHalfUpTenths q = -⌊-q * 10 + 1 / 2⌋ := by
      unfold roundHalfUpTenths; rw [if_neg (not_le.mpr h0)]
    have hin : 0 ≤ ⌊-q * 10 + 1 / 2⌋ := by
      rw [Int.le_floor]; push_cast; nlinarith
    have hfl : ⌊q * 10 + 1 / 2⌋ ≤ 0 := by
      have : ⌊q * 10 + 1 / 2⌋ < 1 := by
        rw [Int.floor_lt]; push_cast; nlinarith
      omega
    rw [ht]
    dsimp only
    have hval : (⟨if -⌊-q * 10 + 1 / 2⌋ < 0 then 0
        else if 10 < -⌊-q * 10 + 1 / 2⌋ then 10 else -⌊-q * 10 + 1 / 2⌋, 1⟩ : Dec).val = 0 := by
      by_cases hneg : -⌊-q * 10 + 1 / 2⌋ < 0
      · rw [if_pos hneg, Dec.val_tenths]; norm_num
      · rw [if_neg hneg, if_neg (by omega), Dec.val_tenths]
        have : -⌊-q * 10 + 1 / 2⌋ = 0 := by omega
        rw [this]; norm_num
    rw [hval]
    have hmax : max 0 ((⌊q * 10 + 1 / 2⌋ : ℚ) / 10) = 0 := by
      rw [max_eq_left]
      have hc : ((⌊q * 10 + 1 / 2⌋ : ℤ) : ℚ) ≤ 0 := by exact_mod_cast hfl
      linarith
    rw [hmax]
    norm_num

/-- C6: `normalize_score` outputs exactly one fractional digit, lands in
`[0.0, 1.0]`, is idempotent, and its value is exactly the spec's
round-half-up-then-clamp of the input's value (as a pure function it is
deterministic and side-effect-free by construction). -/
theorem c6_normalize_score_props (d : Dec) :
    (ItemManager.normalize_score d).fexp = 1 ∧
    0 ≤ (ItemManager.normalize_score d).val ∧
    (ItemManager.normalize_score d).val ≤ 1 ∧
    ItemManager.normalize_score (ItemManager.normalize_score d) =
      ItemManager.normalize_score d ∧
    (ItemManager.normalize_score d).val = specNormalize d.val :=
  ⟨normalize_score_fexp d, normalize_score_val_nonneg d, normalize_score_val_le_one d,
    normalize_score_idem d, normalize_score_val_eq_spec d⟩

/-! ### `Item.save` and `Item.clean` -/

theorem clean_of_normalized (i : Item) (d : Dec)
    (hs : i.score = some (ItemManager.normalize_score d)) : Item.clean i = .ok i := by
  unfold Item.clean
  rw [hs]
  dsimp only
  rw [if_neg, if_neg, if_neg]
  · congr 1
    cases i with
    | mk id value score approved suggested =>
      simp only at hs
      simp [hs, normalize_score_idem]
  · push_neg
    constructor
    · exact normalize_score_val_nonneg d
    · exact normalize_score_val_le_one d
  · push_neg
    have heq : ItemManager.normalize_score d = ⟨(ItemManager.normalize_score d).mant, 1⟩ := rfl
    rw [heq, Dec.val_tenths]
    have : ((ItemManager.normalize_score d).mant : ℚ) / 10 * 10 =
        ((ItemManager.normalize_score d).mant : ℚ) := by ring
    rw [this]
    exact Rat.den_intCast _
  · rw [normalize_score_fexp]
    omega

/-- `Item.save` always succeeds and returns exactly the presaved item:
the score is normalized before `full_clean`, so the clean checks can no
longer fire. -/
theorem save_eq_ok (i : Item) : Item.save i = .ok (Item.presave i) := by
  unfold Item.save Item.presave
  cases hsc : i.score with
  | none =>
    simp only [hsc]
    unfold Item.clean
    rfl
  | some d =>
    simp only [hsc]
    exact clean_of_normalized _ d rfl

/-- C5 (amended): `Item.clean` rejects a set score with more than one
fractional digit, or not a multiple of 0.1, or outside `[0.0, 1.0]`, but
`Item.save` normalizes the score before validation, so persisting succeeds
for every score, storing the normalized value. -/
theorem c5_clean_rejects_save_normalizes (i : Item) (d : Dec) (hs : i.score = some d) :
    ((1 < d.fexp ∨ (d.val * 10).den ≠ 1 ∨ d.val < 0 ∨ 1 < d.val) →
      ∃ e, Item.clean i = .error e) ∧
    ∃ j, Item.save i = .ok j ∧ j.score = some (ItemManager.normalize_score d) ∧
      j.suggested_by_reviewer = true := by
  constructor
  · intro hbad
    unfold Item.clean
    rw [hs]
    dsimp only
    by_cases h1 : 1 < d.fexp
    · exact ⟨.scorePrecision, by rw [if_pos h1]⟩
    · rw [if_neg h1]
      by_cases h2 : (d.val * 10).den ≠ 1
      · exact ⟨.scoreStep, by rw [if_pos h2]⟩
      · rw [if_neg h2]
        have h3 : d.val < 0 ∨ 1 < d.val := by tauto
        exact ⟨.scoreRange, by rw [if_pos h3]⟩
  · refine ⟨Item.presave i, save_eq_ok i, ?_, ?_⟩
    · unfold Item.presave
      simp only [hs]
    · unfold Item.presave
      cases hsc : ({ i with suggested_by_reviewer := true } : Item).score <;> simp

/-- Witness for C5 (amended) at `score = 0.55`: clean rejects it, save
normalizes it to `0.6` and succeeds. -/
theorem c5_clean_rejects_save_normalizes_witness :
    ((1 < (Dec.mk 55 2).fexp ∨ ((Dec.mk 55 2).val * 10).den ≠ 1 ∨ (Dec.mk 55 2).val < 0 ∨
        1 < (Dec.mk 55 2).val) →
      ∃ e, Item.clean ⟨1, "Math", some ⟨55, 2⟩, false, false⟩ = .error e) ∧
    ∃ j, Item.save ⟨1, "Math", some ⟨55, 2⟩, false, false⟩ = .ok j ∧
      j.score = some (ItemManager.normalize_score ⟨55, 2⟩) ∧
      j.suggested_by_reviewer = true :=
  c5_clean_rejects_save_normalizes ⟨1, "Math", some ⟨55, 2⟩, false, false⟩ ⟨55, 2⟩ rfl

/-- C5 counterexample: for the item with score `0.55` — a score with two
fractional digits, for which the claim demands that persisting fail with a
`ValidationError` — `Item.save` succeeds (it normalizes the score to `0.6`
and stores the item). -/
theorem c5_save_never_fails_counterexample :
    (∃ d, (⟨1, "Math", some ⟨55, 2⟩, false, false⟩ : Item).score = some d ∧ 1 < d.fexp) ∧
    ∃ j, Item.save ⟨1, "Math", some ⟨55, 2⟩, false, false⟩ = .ok j := by
  refine ⟨⟨⟨55, 2⟩, rfl, by norm_num⟩, ?_⟩
  exact ⟨_, save_eq_ok _⟩

/-- C8: every successfully persisted item has `suggested_by_reviewer = true`,
whatever the caller set it to. -/
theorem c8_save_forces_reviewer_flag (i j : Item) (h : Item.save i = .ok j) :
    j.suggested_by_reviewer = true := by
  rw [save_eq_ok] at h
  cases h
  unfold Item.presave
  cases hsc : ({ i with suggested_by_reviewer := true } : Item).score <;> simp

/-- Witness for C8: an item saved with the flag set to `false` comes back
with the flag forced to `true`. -/
theorem c8_save_forces_reviewer_flag_witness :
    (Item.presave ⟨7, "Phys", some ⟨3, 1⟩, false, false⟩).suggested_by_reviewer = true :=
  c8_save_forces_reviewer_flag ⟨7, "Phys", some ⟨3, 1⟩, false, false⟩ _ (save_eq_ok _)

/-! ### The score-uniqueness hook -/

/-- The normalized mantissa of an item's score, when one is set. -/
def normScoreOf (h : Item) : Option Int :=
  h.score.map (fun s => (ItemManager.normalize_score s).mant)

theorem dedupWalk_cons_seen {h : Item} {I : List Nat} {S : List Int} (t : List Item)
    (hI : h.id ∈ I) :
    dedupWalk (h :: t) I S = h.id :: dedupWalk t I S := by
  rw [dedupWalk]
  rw [if_pos hI]

theorem dedupWalk_cons_none {h : Item} {I : List Nat} {S : List Int} (t : List Item)
    (hI : h.id ∉ I) (hs : h.score = none) :
    dedupWalk (h :: t) I S = dedupWalk t (h.id :: I) S := by
  rw [dedupWalk]
  rw [if_neg hI, hs]

theorem dedupWalk_cons_dup {h : Item} {I : List Nat} {S : List Int} (t : List Item) {s : Dec}
    (hI : h.id ∉ I) (hs : h.score = some s)
    (hm : (ItemManager.normalize_score s).mant ∈ S) :
    dedupWalk (h :: t) I S = h.id :: dedupWalk t (h.id :: I) S := by
  rw [dedupWalk]
  rw [if_neg hI, hs]
  dsimp only
  rw [if_pos hm]

theorem dedupWalk_cons_fresh {h : Item} {I : List Nat} {S : List Int} (t : List Item) {s : Dec}
    (hI : h.id ∉ I) (hs : h.score = some s)
    (hm : (ItemManager.normalize_score s).mant ∉ S) :
    dedupWalk (h :: t) I S =
      dedupWalk t (h.id :: I) ((ItemManager.normalize_score s).mant :: S) := by
  rw [dedupWalk]
  rw [if_neg hI, hs]
  dsimp only
  rw [if_neg hm]

/-- Every collected id belongs to some walked hypothesis. -/
theorem dedupWalk_subset_ids {m : List Item} :
    ∀ {I : List Nat} {S : List Int} {x : Nat}, x ∈ dedupWalk m I S → x ∈ m.map (·.id) := by
  induction m with
  | nil => intro I S x hx; simp [dedupWalk] at hx
  | cons h t ih =>
    intro I S x hx
    by_cases hI : h.id ∈ I
    · rw [dedupWalk_cons_seen t hI] at hx
      rcases List.mem_cons.mp hx with h1 | h1
      · simp [h1]
      · exact List.mem_cons_of_mem _ (ih h1)
    · cases hsc : h.score with
      | none =>
        rw [dedupWalk_cons_none t hI hsc] at hx
        exact List.mem_cons_of_mem _ (ih hx)
      | some s =>
        by_cases hm : (ItemManager.normalize_score s).mant ∈ S
        · rw [dedupWalk_cons_dup t hI hsc hm] at hx
          rcases List.mem_cons.mp hx with h1 | h1
          · simp [h1]
          · exact List.mem_cons_of_mem _ (ih h1)
        · rw [dedupWalk_cons_fresh t hI hsc hm] at hx
          exact List.mem_cons_of_mem _ (ih hx)

/-- A walked hypothesis whose id was already seen is collected. -/
theorem mem_dedupWalk_of_id_seen {m : List Item} :
    ∀ {I : List Nat} {S : List Int} {h : Item},
      h ∈ m → h.id ∈ I → h.id ∈ dedupWalk m I S := by
  induction m with
  | nil => intro I S h hm; simp at hm
  | cons g t ih =>
    intro I S h hm hI
    rcases List.mem_cons.mp hm with rfl | hmem
    · rw [dedupWalk_cons_seen t hI]
      exact List.mem_cons_self _ _
    · by_cases hgI : g.id ∈ I
      · rw [dedupWalk_cons_seen t hgI]
        exact List.mem_cons_of_mem _ (ih hmem hI)
      · cases hsc : g.score with
        | none =>
          rw [dedupWalk_cons_none t hgI hsc]
          exact ih hmem (List.mem_cons_of_mem _ hI)
        | some s =>
          by_cases hm2 : (ItemManager.normalize_score s).mant ∈ S
          · rw [dedupWalk_cons_dup t hgI hsc hm2]
            exact List.mem_cons_of_mem _ (ih hmem (List.mem_cons_of_mem _ hI))
          · rw [dedupWalk_cons_fresh t hgI hsc hm2]
            exact ih hmem (List.mem_cons_of_mem _ hI)

/-- A walked hypothesis whose normalized score was already seen is
collected (unless its id is handled first — then it is collected too). -/
theorem mem_dedupWalk_of_score_seen {m : List Item} :
    ∀ {I : List Nat} {S : List Int} {h : Item} {s : Dec},
      h ∈ m → h.score = some s → (ItemManager.normalize_score s).mant ∈ S →
      h.id ∈ dedupWalk m I S := by
  induction m with
  | nil => intro I S h s hm; simp at hm
  | cons g t ih =>
    intro I S h s hm hs hns
    rcases List.mem_cons.mp hm with rfl | hmem
    · by_cases hI : h.id ∈ I
      · rw [dedupWalk_cons_seen t hI]
        exact List.mem_cons_self _ _
      · rw [dedupWalk_cons_dup t hI hs hns]
        exact List.mem_cons_self _ _
    · by_cases hgI : g.id ∈ I
      · rw [dedupWalk_cons_seen t hgI]
        exact List.mem_cons_of_mem _ (ih hmem hs hns)
      · cases hsc : g.score with
        | none =>
          rw [dedupWalk_cons_none t hgI hsc]
          exact ih hmem hs hns
        | some u =>
          by_cases hm2 : (ItemManager.normalize_score u).mant ∈ S
          · rw [dedupWalk_cons_dup t hgI hsc hm2]
            exact List.mem_cons_of_mem _ (ih hmem hs hns)
          · rw [dedupWalk_cons_fresh t hgI hsc hm2]
            exact ih hmem hs (List.mem_cons_of_mem _ hns)

/-- When ids are distinct, a null-score hypothesis is never collected. -/
theorem not_mem_dedupWalk_of_null {m : List Item} :
    ∀ {I : List Nat} {S : List Int} {h : Item},
      (m.map (·.id)).Nodup → h ∈ m → h.score = none → h.id ∉ I →
      h.id ∉ dedupWalk m I S := by
  induction m with
  | nil => intro I S h _ hm; simp at hm
  | cons g t ih =>
    intro I S h hnd hm hs hI
    have hnd' : g.id ∉ t.map (·.id) ∧ (t.map (·.id)).Nodup := by
      simpa using List.nodup_cons.mp hnd
    rcases List.mem_cons.mp hm with rfl | hmem
    · rw [dedupWalk_cons_none t hI hs]
      intro hcon
      exact hnd'.1 (dedupWalk_subset_ids hcon)
    · have hne : h.id ≠ g.id := by
        intro he
        exact hnd'.1 (he ▸ List.mem_map_of_mem (·.id) hmem)
      by_cases hgI : g.id ∈ I
      · rw [dedupWalk_cons_seen t hgI]
        intro hcon
        rcases List.mem_cons.mp hcon with h1 | h1
        · exact hne h1
        · exact ih hnd'.2 hmem hs hI h1
      · cases hsc : g.score with
        | none =>
          rw [dedupWalk_cons_none t hgI hsc]
          exact ih hnd'.2 hmem hs (by simp [hI, hne])
        | some u =>
          by_cases hm2 : (ItemManager.normalize_score u).mant ∈ S
          · rw [dedupWalk_cons_dup t hgI hsc hm2]
            intro hcon
            rcases List.mem_cons.mp hcon with h1 | h1
            · exact hne h1
            · exact ih hnd'.2 hmem hs (by simp [hI, hne]) h1
          · rw [dedupWalk_cons_fresh t hgI hsc hm2]
            exact ih hnd'.2 hmem hs (by simp [hI, hne])

/-- Two walked hypotheses with the same id cannot both escape collection. -/
theorem dedupWalk_pairwise_id (m : List Item) : ∀ (I : List Nat) (S : List Int),
    m.Pairwise (fun a b => a.id = b.id → a.id ∈ dedupWalk m I S) := by
  induction m with
  | nil => intro I S; exact List.Pairwise.nil
  | cons g t ih =>
    intro I S
    by_cases hgI : g.id ∈ I
    · simp only [dedupWalk_cons_seen t hgI]
      refine List.pairwise_cons.mpr ⟨?_, ?_⟩
      · intro b _ _
        exact List.mem_cons_self _ _
      · exact (ih I S).imp (fun h hab => List.mem_cons_of_mem _ (h hab))
    · cases hsc : g.score with
      | none =>
        simp only [dedupWalk_cons_none t hgI hsc]
        refine List.pairwise_cons.mpr ⟨?_, ?_⟩
        · intro b hb heq
          rw [heq]
          exact mem_dedupWalk_of_id_seen hb (List.mem_cons_self _ _)
        · exact ih _ _
      | some s =>
        by_cases hm : (ItemManager.normalize_score s).mant ∈ S
        · simp only [dedupWalk_cons_dup t hgI hsc hm]
          refine List.pairwise_cons.mpr ⟨?_, ?_⟩
          · intro b _ _
            exact List.mem_cons_self _ _
          · exact (ih _ _).imp (fun h hab => List.mem_cons_of_mem _ (h hab))
        · simp only [dedupWalk_cons_fresh t hgI hsc hm]
          refine List.pairwise_cons.mpr ⟨?_, ?_⟩
          · intro b hb heq
            rw [heq]
            exact mem_dedupWalk_of_id_seen hb (List.mem_cons_self _ _)
          · exact ih _ _

/-- Two walked hypotheses with the same normalized non-null score cannot
both escape collection. -/
theorem dedupWalk_pairwise_score (m : List Item) : ∀ (I : List Nat) (S : List Int),
    m.Pairwise (fun a b => ∀ s u, a.score = some s → b.score = some u →
      (ItemManager.normalize_score s).mant = (ItemManager.normalize_score u).mant →
      a.id ∈ dedupWalk m I S ∨ b.id ∈ dedupWalk m I S) := by
  induction m with
  | nil => intro I S; exact List.Pairwise.nil
  | cons g t ih =>
    intro I S
    by_cases hgI : g.id ∈ I
    · simp only [dedupWalk_cons_seen t hgI]
      refine List.pairwise_cons.mpr ⟨?_, ?_⟩
      · intro b _ s u _ _ _
        exact Or.inl (List.mem_cons_self _ _)
      · exact (ih I S).imp
          (fun h s u hs hu hn =>
            (h s u hs hu hn).imp (List.mem_cons_of_mem _) (List.mem_cons_of_mem _))
    · cases hsc : g.score with
      | none =>
        simp only [dedupWalk_cons_none t hgI hsc]
        refine List.pairwise_cons.mpr ⟨?_, ?_⟩
        · intro b _ s u hgs _ _
          rw [hsc] at hgs
          cases hgs
        · exact ih _ _
      | some s0 =>
        by_cases hm : (ItemManager.normalize_score s0).mant ∈ S
        · simp only [dedupWalk_cons_dup t hgI hsc hm]
          refine List.pairwise_cons.mpr ⟨?_, ?_⟩
          · intro b _ s u _ _ _
            exact Or.inl (List.mem_cons_self _ _)
          · exact (ih _ _).imp
              (fun h s u hs hu hn =>
                (h s u hs hu hn).imp (List.mem_cons_of_mem _) (List.mem_cons_of_mem _))
        · simp only [dedupWalk_cons_fresh t hgI hsc hm]
          refine List.pairwise_cons.mpr ⟨?_, ?_⟩
          · intro b hb s u hgs hbs hn
            have hse : s = s0 := by
              rw [hsc] at hgs
              exact (Option.some_inj.mp hgs).symm
            have hmem : (ItemManager.normalize_score u).mant ∈
                (ItemManager.normalize_score s0).mant :: S := by
              rw [← hn, hse]
              exact List.mem_cons_self _ _
            exact Or.inr (mem_dedupWalk_of_score_seen hb hbs hmem)
          · exact ih _ _

/-- The saved hypothesis list, explicitly. -/
theorem save_hyps_eq (c : Correction) :
    (Correction.save c).hyps =
      c.hyps.filter (fun h => decide (h.id ∉ dedupWalk (sortByScoreDesc c.hyps) [] [])) :=
  rfl

/-- When ids and normalized non-null scores are already distinct, the walk
collects nothing. -/
theorem dedupWalk_eq_nil (m : List Item) : ∀ (I : List Nat) (S : List Int),
    (m.map (·.id)).Nodup → (∀ h ∈ m, h.id ∉ I) →
    (m.filterMap normScoreOf).Nodup → (∀ q ∈ m.filterMap normScoreOf, q ∉ S) →
    dedupWalk m I S = [] := by
  induction m with
  | nil => intro I S _ _ _ _; rfl
  | cons g t ih =>
    intro I S hnd hI hscn hS
    have hgI : g.id ∉ I := hI g (List.mem_cons_self _ _)
    have hnd' : g.id ∉ t.map (·.id) ∧ (t.map (·.id)).Nodup := by
      simpa using List.nodup_cons.mp hnd
    have hIrest : ∀ h ∈ t, h.id ∉ g.id :: I := by
      intro h hh
      have hne : h.id ≠ g.id := by
        intro he
        exact hnd'.1 (he ▸ List.mem_map_of_mem (·.id) hh)
      simp [hne, hI h (List.mem_cons_of_mem _ hh)]
    cases hsc : g.score with
    | none =>
      have hfm : normScoreOf g = none := by simp [normScoreOf, hsc]
      rw [dedupWalk_cons_none t hgI hsc]
      apply ih _ _ hnd'.2 hIrest
      · rw [List.filterMap_cons_none hfm] at hscn
        exact hscn
      · intro q hq
        apply hS q
        rw [List.filterMap_cons_none hfm]
        exact hq
    | some s =>
      have hfm : normScoreOf g = some (ItemManager.normalize_score s).mant := by
        simp [normScoreOf, hsc]
      have hcons : (g :: t).filterMap normScoreOf =
          (ItemManager.normalize_score s).mant :: t.filterMap normScoreOf :=
        List.filterMap_cons_some hfm
      have hmS : (ItemManager.normalize_score s).mant ∉ S := by
        apply hS
        rw [hcons]
        exact List.mem_cons_self _ _
      have hscn' : (ItemManager.normalize_score s).mant ∉ t.filterMap normScoreOf ∧
          (t.filterMap normScoreOf).Nodup := by
        rw [hcons] at hscn
        exact List.nodup_cons.mp hscn
      rw [dedupWalk_cons_fresh t hgI hsc hmS]
      apply ih _ _ hnd'.2 hIrest hscn'.2
      intro q hq
      have hne : q ≠ (ItemManager.normalize_score s).mant := by
        intro he
        exact hscn'.1 (he ▸ hq)
      have hqS : q ∉ S := by
        apply hS
        rw [hcons]
        exact List.mem_cons_of_mem _ hq
      simp [hne, hqS]

/-- When ids and normalized non-null scores are already distinct, the save
hook changes nothing. -/
theorem save_eq_self (c : Correction)
    (hids : (c.hyps.map (·.id)).Nodup)
    (hsc : (c.hyps.filterMap normScoreOf).Nodup) :
    Correction.save c = c := by
  have hperm : List.Perm (sortByScoreDesc c.hyps) c.hyps := List.perm_insertionSort _ _
  have hids' : ((sortByScoreDesc c.hyps).map (·.id)).Nodup :=
    ((hperm.map (·.id)).nodup_iff).mpr hids
  have hsc' : ((sortByScoreDesc c.hyps).filterMap normScoreOf).Nodup :=
    ((hperm.filterMap normScoreOf).nodup_iff).mpr hsc
  have hnil : dedupWalk (sortByScoreDesc c.hyps) [] [] = [] :=
    dedupWalk_eq_nil _ [] [] hids' (by simp) hsc' (by simp)
  have hfil : c.hyps.filter
      (fun h => decide (h.id ∉ dedupWalk (sortByScoreDesc c.hyps) [] [])) = c.hyps := by
    rw [hnil]
    simp
  have h1 : Correction.save c =
      { c with hyps := c.hyps.filter (fun h => decide (h.id ∉ dedupWalk (sortByScoreDesc c.hyps) [] [])) } :=
    rfl
  rw [h1, hfil]

/-- Evaluate `normalize_score` once the rounding step is known. -/
theorem normalize_score_eval (d : Dec) (t : Int) (ht : roundHalfUpTenths d.val = t)
    (h0 : 0 ≤ t) (h10 : t ≤ 10) :
    ItemManager.normalize_score d = ⟨t, 1⟩ := by
  unfold ItemManager.normalize_score
  rw [ht]
  dsimp only
  rw [if_neg (by omega), if_neg (by omega)]

/-- A one-fractional-digit score in range is already normalized. -/
theorem normalize_score_tenths (m : Int) (h0 : 0 ≤ m) (h10 : m ≤ 10) :
    ItemManager.normalize_score ⟨m, 1⟩ = ⟨m, 1⟩ := by
  apply normalize_score_eval _ _ _ h0 h10
  rw [Dec.val_tenths]
  exact roundHalfUpTenths_intCast m h0

theorem normalize_score_88 : ItemManager.normalize_score ⟨88, 2⟩ = ⟨9, 1⟩ := by
  apply normalize_score_eval
  · unfold roundHalfUpTenths Dec.val
    rw [if_pos (by norm_num)]
    norm_num
  · norm_num
  · norm_num

theorem normalize_score_99 : ItemManager.normalize_score ⟨99, 2⟩ = ⟨10, 1⟩ := by
  apply normalize_score_eval
  · unfold roundHalfUpTenths Dec.val
    rw [if_pos (by norm_num)]
    norm_num
  · norm_num
  · norm_num

theorem normalize_score_zero : ItemManager.normalize_score ⟨0, 0⟩ = ⟨0, 1⟩ := by
  apply normalize_score_eval
  · unfold roundHalfUpTenths Dec.val
    rw [if_pos (by norm_num)]
    norm_num
  · norm_num
  · norm_num

/-! ### Concrete fixtures used by the witnesses, mirroring the repository's
test data -/

def subjMath : Item := ⟨10, "Math", some ⟨8, 1⟩, false, true⟩

def hypMathematics : Item := ⟨11, "Mathematics", some ⟨9, 1⟩, false, true⟩

def hypWorse : Item := ⟨32, "Worse", some ⟨5, 1⟩, false, true⟩

def hypPure : Item := ⟨13, "Pure Math", some ⟨7, 1⟩, true, true⟩

def hypSuper : Item := ⟨30, "Super Math", some ⟨99, 2⟩, false, true⟩

def hypReviewer : Item := ⟨14, "Reviewer Fix", some ⟨10, 1⟩, true, true⟩

def hypFixed : Item := ⟨33, "Fixed Math", some ⟨88, 2⟩, false, true⟩

def corrPending : Correction := ⟨1, subjMath, [hypMathematics], STATUS_PENDING, 0⟩

def corrApproved : Correction := ⟨2, subjMath, [hypPure], STATUS_APPROVED, 1⟩

def corrInvalid : Correction := ⟨3, subjMath, [hypReviewer], STATUS_INVALID, 2⟩

/-- C7: after every save of a correction, the hypothesis set that remains is
a sub-sequence of the stored one in which no two hypotheses share an
identity and no two carry the same normalized non-null score; the hook walks
the hypotheses in descending score order and detaches the later-seen
duplicates (detachment failures are swallowed in the source; a pure model
has none to swallow). -/
theorem c7_save_unique_scores (c : Correction) :
    ((Correction.save c).hyps.Sublist c.hyps) ∧
    (Correction.save c).hyps.Pairwise (fun a b => a.id ≠ b.id) ∧
    (Correction.save c).hyps.Pairwise (fun a b => ∀ s u, a.score = some s →
      b.score = some u →
      (ItemManager.normalize_score s).mant ≠ (ItemManager.normalize_score u).mant) := by
  have hperm : List.Perm (sortByScoreDesc c.hyps) c.hyps := List.perm_insertionSort _ _
  set rem := dedupWalk (sortByScoreDesc c.hyps) [] [] with hrem
  refine ⟨?_, ?_, ?_⟩
  · rw [save_hyps_eq]
    exact List.filter_sublist _
  · have h0 := dedupWalk_pairwise_id (sortByScoreDesc c.hyps) [] []
    rw [← hrem] at h0
    have hsymm : ∀ {x y : Item}, (x.id = y.id → x.id ∈ rem) →
        (y.id = x.id → y.id ∈ rem) := by
      intro x y h heq
      rw [heq]
      exact h heq.symm
    have h1 : c.hyps.Pairwise (fun a b => a.id = b.id → a.id ∈ rem) :=
      (List.Perm.pairwise_iff hsymm hperm).mp h0
    have h2 := h1.filter (fun h => decide (h.id ∉ rem))
    rw [save_hyps_eq]
    refine List.Pairwise.imp_of_mem ?_ h2
    intro a b ha hb hr heq
    have ha' : a.id ∉ rem := of_decide_eq_true (List.mem_filter.mp ha).2
    exact ha' (hr heq)
  · have h0 := dedupWalk_pairwise_score (sortByScoreDesc c.hyps) [] []
    rw [← hrem] at h0
    have hsymm : ∀ {x y : Item},
        (∀ s u, x.score = some s → y.score = some u →
          (ItemManager.normalize_score s).mant = (ItemManager.normalize_score u).mant →
          x.id ∈ rem ∨ y.id ∈ rem) →
        (∀ s u, y.score = some s → x.score = some u →
          (ItemManager.normalize_score s).mant = (ItemManager.normalize_score u).mant →
          y.id ∈ rem ∨ x.id ∈ rem) := by
      intro x y h s u hs hu hn
      exact (h u s hu hs hn.symm).symm
    have h1 := (List.Perm.pairwise_iff hsymm hperm).mp h0
    have h2 := h1.filter (fun h => decide (h.id ∉ rem))
    rw [save_hyps_eq]
    refine List.Pairwise.imp_of_mem ?_ h2
    intro a b ha hb hr s u hs hu hn
    have ha' : a.id ∉ rem := of_decide_eq_true (List.mem_filter.mp ha).2
    have hb' : b.id ∉ rem := of_decide_eq_true (List.mem_filter.mp hb).2
    rcases hr s u hs hu hn with h | h
    · exact ha' h
    · exact hb' h

/-- C10: when the stored hypotheses have distinct ids, the save hook's
score-uniqueness pass never detaches a null-score hypothesis — the walk
skips null scores — so the null-score hypotheses that remain are exactly
those that were attached, however many there are. -/
theorem c10_null_scores_never_detached (c : Correction)
    (hids : (c.hyps.map (·.id)).Nodup) :
    (Correction.save c).hyps.filter (fun h => h.score.isNone) =
      c.hyps.filter (fun h => h.score.isNone) := by
  have hperm : List.Perm (sortByScoreDesc c.hyps) c.hyps := List.perm_insertionSort _ _
  rw [save_hyps_eq, List.filter_filter]
  apply List.filter_congr
  intro h hmem
  cases hsc : h.score with
  | some s => simp [hsc]
  | none =>
    have hsortmem : h ∈ sortByScoreDesc c.hyps := hperm.mem_iff.mpr hmem
    have hnod : ((sortByScoreDesc c.hyps).map (·.id)).Nodup :=
      ((hperm.map (·.id)).nodup_iff).mpr hids
    have hnotin : h.id ∉ dedupWalk (sortByScoreDesc c.hyps) [] [] :=
      not_mem_dedupWalk_of_null hnod hsortmem hsc (List.not_mem_nil h.id)
    simp [hsc, hnotin]

/-- Witness for C10: a correction holding two distinct null-score
hypotheses keeps both across a save. -/
theorem c10_null_scores_never_detached_witness :
    (Correction.save ⟨1, ⟨1, "s", none, false, true⟩,
        [⟨2, "a", none, false, true⟩, ⟨3, "b", none, false, true⟩], 0, 0⟩).hyps.filter
        (fun h => h.score.isNone) =
      (⟨1, ⟨1, "s", none, false, true⟩,
        [⟨2, "a", none, false, true⟩, ⟨3, "b", none, false, true⟩], 0, 0⟩ :
          Correction).hyps.filter (fun h => h.score.isNone) :=
  c10_null_scores_never_detached _ (by decide)

/-! ### Helper lemmas for `apply_correction` -/

theorem Correction.ext' {x y : Correction} (h1 : x.cid = y.cid)
    (h2 : x.subject = y.subject) (h3 : x.hyps = y.hyps) (h4 : x.status = y.status)
    (h5 : x.scope_id = y.scope_id) : x = y := by
  cases x
  cases y
  simp only [Correction.mk.injEq]
  exact ⟨h1, h2, h3, h4, h5⟩

theorem pyMax_spec (l : List Item) (hne : l ≠ []) :
    ∃ b, pyMax l = some b ∧ b ∈ l ∧ ∀ h ∈ l, scoreKey h ≤ scoreKey b := by
  cases l with
  | nil => exact absurd rfl hne
  | cons a t =>
    have aux : ∀ (t : List Item) (a : Item),
        (t.foldl (fun best h => if scoreKey best < scoreKey h then h else best) a = a ∨
          t.foldl (fun best h => if scoreKey best < scoreKey h then h else best) a ∈ t) ∧
        scoreKey a ≤
          scoreKey (t.foldl (fun best h => if scoreKey best < scoreKey h then h else best) a) ∧
        ∀ h ∈ t, scoreKey h ≤
          scoreKey (t.foldl (fun best h => if scoreKey best < scoreKey h then h else best) a) := by
      intro t
      induction t with
      | nil =>
        intro a
        exact ⟨Or.inl rfl, le_refl _, by intro h hh; cases hh⟩
      | cons g u ih =>
        intro a
        have hstep : scoreKey a ≤ scoreKey (if scoreKey a < scoreKey g then g else a) ∧
            scoreKey g ≤ scoreKey (if scoreKey a < scoreKey g then g else a) := by
          by_cases hlt : scoreKey a < scoreKey g
          · rw [if_pos hlt]
            exact ⟨le_of_lt hlt, le_refl _⟩
          · rw [if_neg hlt]
            exact ⟨le_refl _, le_of_not_lt hlt⟩
        have h := ih (if scoreKey a < scoreKey g then g else a)
        simp only [List.foldl_cons]
        refine ⟨?_, ?_, ?_⟩
        · rcases h.1 with he | hm
          · rw [he]
            by_cases hlt : scoreKey a < scoreKey g
            · rw [if_pos hlt]
              exact Or.inr (List.mem_cons_self _ _)
            · rw [if_neg hlt]
              exact Or.inl rfl
          · exact Or.inr (List.mem_cons_of_mem _ hm)
        · exact le_trans hstep.1 h.2.1
        · intro x hx
          rcases List.mem_cons.mp hx with rfl | hxu
          · exact le_trans hstep.2 h.2.1
          · exact h.2.2 x hxu
    have h := aux t a
    refine ⟨_, rfl, ?_, ?_⟩
    · rcases h.1 with he | hm
      · rw [he]
        exact List.mem_cons_self _ _
      · exact List.mem_cons_of_mem _ hm
    · intro x hx
      rcases List.mem_cons.mp hx with rfl | hxt
      · exact h.2.1
      · exact h.2.2 x hxt

theorem attach_proj (c : Correction) (h : Item) :
    (Correction.attach c h).cid = c.cid ∧ (Correction.attach c h).subject = c.subject ∧
    (Correction.attach c h).status = c.status ∧
    (Correction.attach c h).scope_id = c.scope_id := by
  unfold Correction.attach
  split
  · exact ⟨rfl, rfl, rfl, rfl⟩
  · exact ⟨rfl, rfl, rfl, rfl⟩

theorem foldl_attach_proj (new : List Item) : ∀ (c : Correction),
    ((new.foldl Correction.attach c).cid = c.cid ∧
      (new.foldl Correction.attach c).subject = c.subject ∧
      (new.foldl Correction.attach c).status = c.status ∧
      (new.foldl Correction.attach c).scope_id = c.scope_id) := by
  induction new with
  | nil => intro c; exact ⟨rfl, rfl, rfl, rfl⟩
  | cons n t ih =>
    intro c
    have ha := attach_proj c n
    have h := ih (c.attach n)
    simp only [List.foldl_cons]
    exact ⟨h.1.trans ha.1, h.2.1.trans ha.2.1, h.2.2.1.trans ha.2.2.1,
      h.2.2.2.trans ha.2.2.2⟩

theorem foldl_attach_hyps (new : List Item) : ∀ (c : Correction),
    ((c.hyps ++ new).map (·.id)).Nodup →
    (new.foldl Correction.attach c).hyps = c.hyps ++ new := by
  induction new with
  | nil =>
    intro c _
    simp
  | cons n t ih =>
    intro c hnd
    have hmapapp : ((c.hyps ++ n :: t).map (·.id)) =
        c.hyps.map (·.id) ++ (n :: t).map (·.id) := by
      rw [List.map_append]
    rw [hmapapp] at hnd
    have hdisj := (List.nodup_append.mp hnd).2.2
    have hnotin : ∀ x ∈ c.hyps, ¬ (x.id = n.id) := by
      intro x hx he
      exact hdisj (List.mem_map_of_mem (·.id) hx) (by simp [he])
    have hany : c.hyps.any (fun x => decide (x.id = n.id)) = false := by
      rw [List.any_eq_false]
      intro x hx
      simp [hnotin x hx]
    have hstep : Correction.attach c n = { c with hyps := c.hyps ++ [n] } := by
      unfold Correction.attach
      rw [if_neg]
      rw [hany]
      simp
    simp only [List.foldl_cons, hstep]
    have hnd2 : (((c.hyps ++ [n]) ++ t).map (·.id)).Nodup := by
      rw [← List.append_cons, hmapapp]
      exact hnd
    rw [ih _ hnd2]
    rw [← List.append_cons]

theorem firstApproved_eq_none (l : List Item) (h : ∀ x ∈ l, x.approved = false) :
    firstApproved l = none := by
  unfold firstApproved
  rw [List.find?_eq_none]
  intro x hx
  have hx' : x ∈ l := (List.mem_insertionSort hypGE).mp hx
  simp [h x hx']

theorem find_unique {p : Item → Bool} : ∀ (m : List Item) (a : Item),
    a ∈ m → p a = true → (∀ x ∈ m, p x = true → x = a) → m.find? p = some a := by
  intro m
  induction m with
  | nil =>
    intro a ha
    cases ha
  | cons g t ih =>
    intro a ha hpa huniq
    by_cases hpg : p g = true
    · have : g = a := huniq g (List.mem_cons_self _ _) hpg
      rw [List.find?_cons_of_pos _ hpg, this]
    · have hne : a ≠ g := by
        intro he
        exact hpg (he ▸ hpa)
      have hat : a ∈ t := by
        rcases List.mem_cons.mp ha with he | hm
        · exact absurd he hne
        · exact hm
      rw [List.find?_cons_of_neg _ (by simp [hpg])]
      exact ih a hat hpa (fun x hx hpx => huniq x (List.mem_cons_of_mem _ hx) hpx)

theorem firstApproved_eq_some (l : List Item) (a : Item) (ha : a ∈ l)
    (hap : a.approved = true) (huniq : ∀ x ∈ l, x.approved = true → x = a) :
    firstApproved l = some a := by
  unfold firstApproved
  apply find_unique
  · exact (List.mem_insertionSort hypGE).mpr ha
  · exact hap
  · intro x hx hpx
    exact huniq x ((List.mem_insertionSort hypGE).mp hx) hpx

theorem bestByScore_spec (l : List Item) (hne : l ≠ []) :
    ∃ b, bestByScore l = some b ∧ b ∈ l ∧ ∀ h ∈ l, scoreKey h ≤ scoreKey b := by
  have hlen : sortByScoreDesc l ≠ [] := by
    intro he
    apply hne
    unfold sortByScoreDesc at he
    have hl := (List.perm_insertionSort hypGE l).length_eq
    rw [he] at hl
    exact List.eq_nil_of_length_eq_zero hl.symm
  have hsorted : List.Sorted hypGE (sortByScoreDesc l) :=
    List.sorted_insertionSort hypGE l
  cases hso : sortByScoreDesc l with
  | nil => exact absurd hso hlen
  | cons b u =>
    refine ⟨b, ?_, ?_, ?_⟩
    · unfold bestByScore
      rw [hso]
      rfl
    · have : b ∈ sortByScoreDesc l := by
        rw [hso]
        exact List.mem_cons_self _ _
      exact (List.mem_insertionSort hypGE).mp this
    · intro h hh
      have hh' : h ∈ sortByScoreDesc l := (List.mem_insertionSort hypGE).mpr hh
      rw [hso] at hh' hsorted
      rcases List.mem_cons.mp hh' with rfl | hhu
      · exact le_refl _
      · exact List.rel_of_sorted_cons hsorted h hhu

/-! ### The resolution state machine -/

/-- C4: when no correction matches `(subject.value, scope_id)`,
`apply_correction` leaves the store untouched (in particular it creates no
correction) and returns the maximum-score input hypothesis when the list is
non-empty, the subject otherwise. Input scores are non-null, as the engine's
input contract demands for every compared score. -/
theorem c4_apply_correction_no_match (store : List Correction) (subject : Item)
    (hypotheses : List Item) (scope_id : Int)
    (hno : store.filter (fun c =>
      decide (c.subject.value = subject.value) && decide (c.scope_id = scope_id)) = [])
    (hscores : ∀ h ∈ hypotheses, h.score ≠ none) :
    (apply_correction store subject hypotheses scope_id).2 = store ∧
    (hypotheses = [] → (apply_correction store subject hypotheses scope_id).1 = subject) ∧
    (hypotheses ≠ [] →
      (apply_correction store subject hypotheses scope_id).1 ∈ hypotheses ∧
      ∀ h ∈ hypotheses,
        scoreKey h ≤ scoreKey (apply_correction store subject hypotheses scope_id).1) := by
  have hred : apply_correction store subject hypotheses scope_id =
      if hypotheses.isEmpty then (subject, store)
      else ((pyMax hypotheses).getD subject, store) := by
    unfold apply_correction
    rw [hno]
    rfl
  cases hemp : hypotheses with
  | nil =>
    rw [hemp] at hred
    simp only [List.isEmpty_nil, if_pos] at hred
    rw [hred]
    exact ⟨rfl, fun _ => rfl, fun hne => absurd rfl hne⟩
  | cons a t =>
    rw [hemp] at hred
    simp only [List.isEmpty_cons, Bool.false_eq_true, if_false] at hred
    obtain ⟨b, hb, hmem, hmax⟩ := pyMax_spec (a :: t) (List.cons_ne_nil a t)
    rw [hb] at hred
    simp only [Option.getD_some] at hred
    rw [hred]
    refine ⟨rfl, fun he => absurd he (List.cons_ne_nil a t), fun _ => ⟨hmem, hmax⟩⟩

/-- Witness for C4 on a store with one non-matching correction and two
input hypotheses: the higher-scoring one is returned and the store is
unchanged. -/
theorem c4_apply_correction_no_match_witness :
    (apply_correction [⟨1, ⟨1, "Math", some ⟨8, 1⟩, false, true⟩, [], 0, 0⟩]
        ⟨2, "Physics", some ⟨5, 1⟩, false, true⟩
        [⟨3, "A", some ⟨6, 1⟩, false, true⟩, ⟨4, "B", some ⟨9, 1⟩, false, true⟩] 0).2 =
      [⟨1, ⟨1, "Math", some ⟨8, 1⟩, false, true⟩, [], 0, 0⟩] ∧
    ([⟨3, "A", some ⟨6, 1⟩, false, true⟩, ⟨4, "B", some ⟨9, 1⟩, false, true⟩] = ([] : List Item) →
      (apply_correction [⟨1, ⟨1, "Math", some ⟨8, 1⟩, false, true⟩, [], 0, 0⟩]
        ⟨2, "Physics", some ⟨5, 1⟩, false, true⟩
        [⟨3, "A", some ⟨6, 1⟩, false, true⟩, ⟨4, "B", some ⟨9, 1⟩, false, true⟩] 0).1 =
        ⟨2, "Physics", some ⟨5, 1⟩, false, true⟩) ∧
    ([⟨3, "A", some ⟨6, 1⟩, false, true⟩, ⟨4, "B", some ⟨9, 1⟩, false, true⟩] ≠ ([] : List Item) →
      (apply_correction [⟨1, ⟨1, "Math", some ⟨8, 1⟩, false, true⟩, [], 0, 0⟩]
        ⟨2, "Physics", some ⟨5, 1⟩, false, true⟩
        [⟨3, "A", some ⟨6, 1⟩, false, true⟩, ⟨4, "B", some ⟨9, 1⟩, false, true⟩] 0).1 ∈
        [⟨3, "A", some ⟨6, 1⟩, false, true⟩, ⟨4, "B", some ⟨9, 1⟩, false, true⟩] ∧
      ∀ h ∈ [⟨3, "A", some ⟨6, 1⟩, false, true⟩, ⟨4, "B", some ⟨9, 1⟩, false, true⟩],
        scoreKey h ≤ scoreKey (apply_correction
          [⟨1, ⟨1, "Math", some ⟨8, 1⟩, false, true⟩, [], 0, 0⟩]
          ⟨2, "Physics", some ⟨5, 1⟩, false, true⟩
          [⟨3, "A", some ⟨6, 1⟩, false, true⟩, ⟨4, "B", some ⟨9, 1⟩, false, true⟩] 0).1) :=
  c4_apply_correction_no_match _ _ _ _ (by decide) (by decide)

theorem apply_correction_pending_eq (store : List Correction) (subject : Item)
    (hypotheses : List Item) (scope_id : Int) (c : Correction)
    (hc : (store.filter (fun x =>
      decide (x.subject.value = subject.value) && decide (x.scope_id = scope_id))).head? =
        some c)
    (hst : c.status = STATUS_PENDING) :
    apply_correction store subject hypotheses scope_id =
      ((bestByScore (Correction.save (hypotheses.foldl Correction.attach c)).hyps).getD
          subject,
        updateStore store (Correction.save (hypotheses.foldl Correction.attach c))) := by
  unfold apply_correction
  rw [hc]
  dsimp only
  rw [hst]
  rw [if_neg (by decide), if_pos rfl]

theorem apply_correction_invalid_eq (store : List Correction) (subject : Item)
    (hypotheses : List Item) (scope_id : Int) (c : Correction)
    (hc : (store.filter (fun x =>
      decide (x.subject.value = subject.value) && decide (x.scope_id = scope_id))).head? =
        some c)
    (hst : c.status = STATUS_INVALID) :
    apply_correction store subject hypotheses scope_id =
      (if hypotheses.isEmpty then
        (subject, updateStore store (Correction.save
          { hypotheses.foldl Correction.attach
              { c with hyps := c.hyps.map (fun h =>
                  if h.suggested_by_reviewer then
                    Item.presave { h with score := some ⟨0, 0⟩, approved := false }
                  else h) } with
              status := STATUS_PENDING }))
      else
        ((pyMax hypotheses).getD subject, updateStore store (Correction.save
          { hypotheses.foldl Correction.attach
              { c with hyps := c.hyps.map (fun h =>
                  if h.suggested_by_reviewer then
                    Item.presave { h with score := some ⟨0, 0⟩, approved := false }
                  else h) } with
              status := STATUS_PENDING }))) := by
  unfold apply_correction
  rw [hc]
  dsimp only
  rw [hst]
  rw [if_neg (by decide), if_neg (by decide), if_pos rfl]

theorem apply_correction_approved_eq (store : List Correction) (subject : Item)
    (hypotheses : List Item) (scope_id : Int) (c : Correction)
    (hc : (store.filter (fun x =>
      decide (x.subject.value = subject.value) && decide (x.scope_id = scope_id))).head? =
        some c)
    (hst : c.status = STATUS_APPROVED) :
    apply_correction store subject hypotheses scope_id =
      (match firstApproved c.hyps with
       | some a => (a,
          if (betterThan (currentScoreOf (firstApproved c.hyps)) hypotheses).isEmpty then
            store
          else
            updateStore store
              (if (betterThan (currentScoreOf (firstApproved c.hyps))
                  hypotheses).isEmpty then c
               else Correction.save
                { (betterThan (currentScoreOf (firstApproved c.hyps)) hypotheses).foldl
                    Correction.attach c with status := STATUS_PENDING }))
       | none =>
          ((bestByScore (if (betterThan (currentScoreOf (firstApproved c.hyps))
                hypotheses).isEmpty then c
              else Correction.save
                { (betterThan (currentScoreOf (firstApproved c.hyps)) hypotheses).foldl
                    Correction.attach c with status := STATUS_PENDING }).hyps).getD subject,
            if (betterThan (currentScoreOf (firstApproved c.hyps)) hypotheses).isEmpty then
              store
            else
              updateStore store
                (if (betterThan (currentScoreOf (firstApproved c.hyps))
                    hypotheses).isEmpty then c
                 else Correction.save
                  { (betterThan (currentScoreOf (firstApproved c.hyps)) hypotheses).foldl
                      Correction.attach c with status := STATUS_PENDING }))) := by
  unfold apply_correction
  rw [hc]
  dsimp only
  rw [hst]
  rw [if_pos rfl]

/-- C3: on a PENDING correction matching `(subject.value, scope_id)`,
`apply_correction` attaches every input hypothesis, leaves the status
PENDING, persists the correction, and returns the maximum-score member of
the correction's full hypothesis set, or the subject when the set is empty.
Ids and normalized non-null scores across the stored and input hypotheses
are distinct, so the persistence hook's deduplication has nothing to
remove. -/
theorem c3_apply_correction_pending (store : List Correction) (subject : Item)
    (hypotheses : List Item) (scope_id : Int) (c : Correction)
    (hc : (store.filter (fun x =>
      decide (x.subject.value = subject.value) && decide (x.scope_id = scope_id))).head? =
        some c)
    (hst : c.status = STATUS_PENDING)
    (hids : ((c.hyps ++ hypotheses).map (·.id)).Nodup)
    (hscu : ((c.hyps ++ hypotheses).filterMap normScoreOf).Nodup) :
    (apply_correction store subject hypotheses scope_id).2 =
      updateStore store { c with hyps := c.hyps ++ hypotheses } ∧
    ({ c with hyps := c.hyps ++ hypotheses } : Correction).status = STATUS_PENDING ∧
    (c.hyps ++ hypotheses = [] →
      (apply_correction store subject hypotheses scope_id).1 = subject) ∧
    (c.hyps ++ hypotheses ≠ [] →
      (apply_correction store subject hypotheses scope_id).1 ∈ c.hyps ++ hypotheses ∧
      ∀ h ∈ c.hyps ++ hypotheses,
        scoreKey h ≤ scoreKey (apply_correction store subject hypotheses scope_id).1) := by
  have hp := foldl_attach_proj hypotheses c
  have hfold : hypotheses.foldl Correction.attach c =
      { c with hyps := c.hyps ++ hypotheses } :=
    Correction.ext' hp.1 hp.2.1 (foldl_attach_hyps hypotheses c hids) hp.2.2.1 hp.2.2.2
  have hsave : Correction.save { c with hyps := c.hyps ++ hypotheses } =
      { c with hyps := c.hyps ++ hypotheses } :=
    save_eq_self _ hids hscu
  have hred := apply_correction_pending_eq store subject hypotheses scope_id c hc hst
  rw [hfold, hsave] at hred
  have hred2 : apply_correction store subject hypotheses scope_id =
      ((bestByScore (c.hyps ++ hypotheses)).getD subject,
        updateStore store { c with hyps := c.hyps ++ hypotheses }) := hred
  rw [hred2]
  refine ⟨rfl, hst, ?_, ?_⟩
  · intro hemp
    show (bestByScore (c.hyps ++ hypotheses)).getD subject = subject
    rw [hemp]
    rfl
  · intro hne
    obtain ⟨b, hb, hmem, hmax⟩ := bestByScore_spec (c.hyps ++ hypotheses) hne
    show (bestByScore (c.hyps ++ hypotheses)).getD subject ∈ c.hyps ++ hypotheses ∧ _
    rw [hb]
    exact ⟨hmem, fun h hh => hmax h hh⟩

/-- Witness for C3, mirroring the repository's test: PENDING correction
holding "Mathematics" at 0.9, input "Worse" at 0.5 — both present after the
call and the returned item is the stored maximum. -/
theorem c3_apply_correction_pending_witness :
    (apply_correction [corrPending] subjMath [hypWorse] 0).2 =
      updateStore [corrPending]
        { corrPending with hyps := corrPending.hyps ++ [hypWorse] } ∧
    ({ corrPending with hyps := corrPending.hyps ++ [hypWorse] } : Correction).status =
      STATUS_PENDING ∧
    (corrPending.hyps ++ [hypWorse] = [] →
      (apply_correction [corrPending] subjMath [hypWorse] 0).1 = subjMath) ∧
    (corrPending.hyps ++ [hypWorse] ≠ [] →
      (apply_correction [corrPending] subjMath [hypWorse] 0).1 ∈
        corrPending.hyps ++ [hypWorse] ∧
      ∀ h ∈ corrPending.hyps ++ [hypWorse],
        scoreKey h ≤ scoreKey (apply_correction [corrPending] subjMath [hypWorse] 0).1) :=
  c3_apply_correction_pending [corrPending] subjMath [hypWorse] 0 corrPending
    (by decide) (by decide) (by decide)
    (by
      have h9 := normalize_score_tenths 9 (by norm_num) (by norm_num)
      have h5 := normalize_score_tenths 5 (by norm_num) (by norm_num)
      simp [corrPending, hypMathematics, hypWorse, normScoreOf, h9, h5])

/-- C1: on an APPROVED correction matching `(subject.value, scope_id)`,
`apply_correction` attaches exactly the input hypotheses whose score
strictly exceeds the approved hypothesis's score (negative infinity when no
hypothesis is flagged approved), transitions the status to PENDING and
persists if and only if at least one such hypothesis exists, and returns
the previously approved hypothesis when one exists, otherwise the
maximum-score member of the resulting hypothesis set, otherwise the
subject. Compared scores are non-null, and ids and normalized scores are
distinct so the save hook's deduplication has nothing to remove. -/
theorem c1_apply_correction_approved (store : List Correction) (subject : Item)
    (hypotheses : List Item) (scope_id : Int) (c : Correction) (aOpt : Option Item)
    (hc : (store.filter (fun x =>
      decide (x.subject.value = subject.value) && decide (x.scope_id = scope_id))).head? =
        some c)
    (hst : c.status = STATUS_APPROVED)
    (hap : (aOpt = none ∧ ∀ x ∈ c.hyps, x.approved = false) ∨
      (∃ a, aOpt = some a ∧ a ∈ c.hyps ∧ a.approved = true ∧ a.score ≠ none ∧
        (∀ x ∈ c.hyps, x.approved = true → x = a)))
    (hscores : ∀ h ∈ hypotheses, h.score ≠ none)
    (hids : ((c.hyps ++ hypotheses).map (·.id)).Nodup)
    (hscu : ((c.hyps ++ hypotheses).filterMap normScoreOf).Nodup) :
    (betterThan (currentScoreOf aOpt) hypotheses = [] →
      (apply_correction store subject hypotheses scope_id).2 = store) ∧
    (betterThan (currentScoreOf aOpt) hypotheses ≠ [] →
      (apply_correction store subject hypotheses scope_id).2 =
        updateStore store
          { c with
              hyps := c.hyps ++ betterThan (currentScoreOf aOpt) hypotheses
              status := STATUS_PENDING }) ∧
    (∀ a, aOpt = some a → (apply_correction store subject hypotheses scope_id).1 = a) ∧
    (aOpt = none →
      (c.hyps ++ betterThan (currentScoreOf aOpt) hypotheses = [] →
        (apply_correction store subject hypotheses scope_id).1 = subject) ∧
      (c.hyps ++ betterThan (currentScoreOf aOpt) hypotheses ≠ [] →
        (apply_correction store subject hypotheses scope_id).1 ∈
          c.hyps ++ betterThan (currentScoreOf aOpt) hypotheses ∧
        ∀ h ∈ c.hyps ++ betterThan (currentScoreOf aOpt) hypotheses,
          scoreKey h ≤
            scoreKey (apply_correction store subject hypotheses scope_id).1)) := by
  have hfa : firstApproved c.hyps = aOpt := by
    rcases hap with ⟨haeq, hnone⟩ | ⟨a, haeq, hamem, happr, _, huniq⟩
    · rw [haeq]
      exact firstApproved_eq_none _ hnone
    · rw [haeq]
      exact firstApproved_eq_some _ _ hamem happr huniq
  have hred0 := apply_correction_approved_eq store subject hypotheses scope_id c hc hst
  rw [hfa] at hred0
  set B := betterThan (currentScoreOf aOpt) hypotheses with hBdef
  have hsubB : List.Sublist B hypotheses := by
    rw [hBdef]
    unfold betterThan
    exact List.filter_sublist _
  have happ2 : List.Sublist (c.hyps ++ B) (c.hyps ++ hypotheses) :=
    hsubB.append_left c.hyps
  have hidsB : ((c.hyps ++ B).map (·.id)).Nodup :=
    List.Nodup.sublist (happ2.map _) hids
  have hscuB : ((c.hyps ++ B).filterMap normScoreOf).Nodup :=
    List.Nodup.sublist (happ2.filterMap normScoreOf) hscu
  have hp := foldl_attach_proj B c
  have hfold : B.foldl Correction.attach c = { c with hyps := c.hyps ++ B } :=
    Correction.ext' hp.1 hp.2.1 (foldl_attach_hyps B c hidsB) hp.2.2.1 hp.2.2.2
  have hCsave : Correction.save
        { c with
            hyps := c.hyps ++ B
            status := STATUS_PENDING } =
      { c with
          hyps := c.hyps ++ B
          status := STATUS_PENDING } :=
    save_eq_self _ hidsB hscuB
  have hwith : ({ B.foldl Correction.attach c with status := STATUS_PENDING } : Correction) =
      { c with
          hyps := c.hyps ++ B
          status := STATUS_PENDING } := by
    rw [hfold]
  have hcorr : (if B.isEmpty then c
      else Correction.save { B.foldl Correction.attach c with status := STATUS_PENDING }) =
      (if B.isEmpty then c
      else { c with
          hyps := c.hyps ++ B
          status := STATUS_PENDING }) := by
    rw [hwith, hCsave]
  rcases hap with ⟨haeq, _⟩ | ⟨a, haeq, _, _, _, _⟩
  · subst haeq
    have hredN : apply_correction store subject hypotheses scope_id =
        ((bestByScore (if B.isEmpty then c
            else Correction.save
              { B.foldl Correction.attach c with status := STATUS_PENDING }).hyps).getD
            subject,
          if B.isEmpty then store
          else updateStore store (if B.isEmpty then c
            else Correction.save
              { B.foldl Correction.attach c with status := STATUS_PENDING })) := hred0
    rw [hcorr] at hredN
    refine ⟨?_, ?_, ?_, ?_⟩
    · intro hBe
      rw [hredN]
      show (if B.isEmpty then store else _) = store
      rw [hBe]
      rfl
    · intro hBe
      have hBe' : B.isEmpty = false := List.isEmpty_eq_false.mpr hBe
      rw [hredN]
      show (if B.isEmpty then store else _) = _
      rw [hBe']
      rfl
    · intro a ha
      cases ha
    · intro _
      by_cases hBe : B = []
      · have hnil : c.hyps ++ B = c.hyps := by rw [hBe, List.append_nil]
        have hres : (apply_correction store subject hypotheses scope_id).1 =
            (bestByScore c.hyps).getD subject := by
          rw [hredN]
          show (bestByScore (if B.isEmpty then c else _).hyps).getD subject = _
          rw [hBe]
          rfl
        rw [hnil, hres]
        constructor
        · intro hch
          rw [hch]
          rfl
        · intro hch
          obtain ⟨b, hb, hmem, hmax⟩ := bestByScore_spec c.hyps hch
          rw [hb]
          exact ⟨hmem, hmax⟩
      · have hBe' : B.isEmpty = false := List.isEmpty_eq_false.mpr hBe
        have hres : (apply_correction store subject hypotheses scope_id).1 =
            (bestByScore (c.hyps ++ B)).getD subject := by
          rw [hredN]
          show (bestByScore (if B.isEmpty then c else _).hyps).getD subject = _
          rw [hBe']
          rfl
        rw [hres]
        constructor
        · intro hch
          rw [hch]
          rfl
        · intro hch
          obtain ⟨b, hb, hmem, hmax⟩ := bestByScore_spec (c.hyps ++ B) hch
          rw [hb]
          exact ⟨hmem, hmax⟩
  · subst haeq
    have hredS : apply_correction store subject hypotheses scope_id =
        (a, if B.isEmpty then store
          else updateStore store (if B.isEmpty then c
            else Correction.save
              { B.foldl Correction.attach c with status := STATUS_PENDING })) := hred0
    rw [hcorr] at hredS
    refine ⟨?_, ?_, ?_, ?_⟩
    · intro hBe
      rw [hredS]
      show (if B.isEmpty then store else _) = store
      rw [hBe]
      rfl
    · intro hBe
      have hBe' : B.isEmpty = false := List.isEmpty_eq_false.mpr hBe
      rw [hredS]
      show (if B.isEmpty then store else _) = _
      rw [hBe']
      rfl
    · intro a' ha'
      rw [hredS]
      cases ha'
      rfl
    · intro h
      cases h

/-- Witness for C1, mirroring the repository's test: APPROVED correction
with approved "Pure Math" at 0.7 and input "Super Math" at 0.99 — the
better input is attached, the status becomes PENDING, and the returned item
is still "Pure Math". -/
theorem c1_apply_correction_approved_witness :
    (betterThan (currentScoreOf (some hypPure)) [hypSuper] = [] →
      (apply_correction [corrApproved] subjMath [hypSuper] 1).2 = [corrApproved]) ∧
    (betterThan (currentScoreOf (some hypPure)) [hypSuper] ≠ [] →
      (apply_correction [corrApproved] subjMath [hypSuper] 1).2 =
        updateStore [corrApproved]
          { corrApproved with
              hyps := corrApproved.hyps ++ betterThan (currentScoreOf (some hypPure)) [hypSuper]
              status := STATUS_PENDING }) ∧
    (∀ a, (some hypPure : Option Item) = some a →
      (apply_correction [corrApproved] subjMath [hypSuper] 1).1 = a) ∧
    ((some hypPure : Option Item) = none →
      (corrApproved.hyps ++ betterThan (currentScoreOf (some hypPure)) [hypSuper] = [] →
        (apply_correction [corrApproved] subjMath [hypSuper] 1).1 = subjMath) ∧
      (corrApproved.hyps ++ betterThan (currentScoreOf (some hypPure)) [hypSuper] ≠ [] →
        (apply_correction [corrApproved] subjMath [hypSuper] 1).1 ∈
          corrApproved.hyps ++ betterThan (currentScoreOf (some hypPure)) [hypSuper] ∧
        ∀ h ∈ corrApproved.hyps ++ betterThan (currentScoreOf (some hypPure)) [hypSuper],
          scoreKey h ≤ scoreKey (apply_correction [corrApproved] subjMath [hypSuper] 1).1)) :=
  c1_apply_correction_approved [corrApproved] subjMath [hypSuper] 1 corrApproved
    (some hypPure) (by decide) (by decide)
    (Or.inr ⟨hypPure, rfl, by decide, by decide, by decide, by decide⟩)
    (by decide) (by decide)
    (by
      have h7 := normalize_score_tenths 7 (by norm_num) (by norm_num)
      simp [corrApproved, hypPure, hypSuper, normScoreOf, h7, normalize_score_99])

/-- The INVALID branch's per-hypothesis reset, `hyp.score = 0; hyp.approved
= False; hyp.save()`, written out: score becomes the normalized `0.0`, the
approval is cleared and the reviewer flag is forced. -/
theorem presave_reset (h : Item) :
    Item.presave { h with score := some ⟨0, 0⟩, approved := false } =
      { h with score := some ⟨0, 1⟩, approved := false, suggested_by_reviewer := true } := by
  cases h with
  | mk id value score approved suggested =>
    simp [Item.presave, normalize_score_zero]

/-- C2: on an INVALID correction matching `(subject.value, scope_id)`,
`apply_correction` resets score to `0.0` and `approved` to false on every
stored hypothesis flagged `suggested_by_reviewer` and persists it, attaches
every input hypothesis, transitions the status to PENDING and persists the
correction, and returns the maximum-score input hypothesis when the input
list is non-empty, the subject otherwise. Input scores are non-null, and
ids and post-reset normalized scores are distinct so the save hook's
deduplication has nothing to remove. -/
theorem c2_apply_correction_invalid (store : List Correction) (subject : Item)
    (hypotheses : List Item) (scope_id : Int) (c : Correction)
    (hc : (store.filter (fun x =>
      decide (x.subject.value = subject.value) && decide (x.scope_id = scope_id))).head? =
        some c)
    (hst : c.status = STATUS_INVALID)
    (hscores : ∀ h ∈ hypotheses, h.score ≠ none)
    (hids : ((c.hyps ++ hypotheses).map (·.id)).Nodup)
    (hscu : ((c.hyps.map (fun h => if h.suggested_by_reviewer then
          Item.presave { h with score := some ⟨0, 0⟩, approved := false } else h) ++
        hypotheses).filterMap normScoreOf).Nodup) :
    (apply_correction store subject hypotheses scope_id).2 =
      updateStore store
        { c with
            hyps := c.hyps.map (fun h => if h.suggested_by_reviewer then
              Item.presave { h with score := some ⟨0, 0⟩, approved := false } else h) ++
              hypotheses
            status := STATUS_PENDING } ∧
    (∀ h ∈ c.hyps, h.suggested_by_reviewer = true →
      ({ h with score := some ⟨0, 1⟩, approved := false, suggested_by_reviewer := true } :
          Item) ∈
        c.hyps.map (fun h => if h.suggested_by_reviewer then
          Item.presave { h with score := some ⟨0, 0⟩, approved := false } else h) ++
          hypotheses) ∧
    (hypotheses = [] → (apply_correction store subject hypotheses scope_id).1 = subject) ∧
    (hypotheses ≠ [] →
      (apply_correction store subject hypotheses scope_id).1 ∈ hypotheses ∧
      ∀ h ∈ hypotheses,
        scoreKey h ≤ scoreKey (apply_correction store subject hypotheses scope_id).1) := by
  set R := c.hyps.map (fun h => if h.suggested_by_reviewer then
    Item.presave { h with score := some ⟨0, 0⟩, approved := false } else h) with hRdef
  have hmapid : R.map (·.id) = c.hyps.map (·.id) := by
    rw [hRdef, List.map_map]
    apply List.map_congr_left
    intro h _
    by_cases hf : h.suggested_by_reviewer
    · simp only [Function.comp_apply, if_pos hf, presave_reset]
    · simp only [Function.comp_apply, if_neg hf]
  have hidsR : ((R ++ hypotheses).map (·.id)).Nodup := by
    rw [List.map_append, hmapid, ← List.map_append]
    exact hids
  have hp := foldl_attach_proj hypotheses { c with hyps := R }
  have hfold : hypotheses.foldl Correction.attach { c with hyps := R } =
      { c with hyps := R ++ hypotheses } :=
    Correction.ext' hp.1 hp.2.1 (foldl_attach_hyps hypotheses { c with hyps := R } hidsR)
      hp.2.2.1 hp.2.2.2
  have hCsave : Correction.save
        { c with
            hyps := R ++ hypotheses
            status := STATUS_PENDING } =
      { c with
          hyps := R ++ hypotheses
          status := STATUS_PENDING } :=
    save_eq_self _ hidsR hscu
  have hwith : ({ hypotheses.foldl Correction.attach { c with hyps := R } with
        status := STATUS_PENDING } : Correction) =
      { c with
          hyps := R ++ hypotheses
          status := STATUS_PENDING } := by
    rw [hfold]
  have hred := apply_correction_invalid_eq store subject hypotheses scope_id c hc hst
  rw [hwith, hCsave] at hred
  refine ⟨?_, ?_, ?_, ?_⟩
  · rw [hred]
    cases hemp : hypotheses.isEmpty
    · rw [if_neg (by simp [hemp])]
    · rw [if_pos (by simp [hemp])]
  · intro h hmem hflag
    apply List.mem_append_left
    rw [hRdef]
    have : ({ h with score := some ⟨0, 1⟩, approved := false, suggested_by_reviewer := true } :
        Item) =
        (fun h => if h.suggested_by_reviewer then
          Item.presave { h with score := some ⟨0, 0⟩, approved := false } else h) h := by
      simp only [if_pos hflag, presave_reset]
    rw [this]
    exact List.mem_map_of_mem _ hmem
  · intro hemp
    rw [hred, hemp]
    rfl
  · intro hne
    have hemp : hypotheses.isEmpty = false := List.isEmpty_eq_false.mpr hne
    rw [hred, if_neg (by simp [hemp])]
    obtain ⟨b, hb, hmem, hmax⟩ := pyMax_spec hypotheses hne
    rw [hb]
    exact ⟨hmem, hmax⟩

/-- Witness for C2, mirroring the repository's test: INVALID correction
with reviewer-suggested "Reviewer Fix" at 1.0 and input "Fixed Math" at
0.88 — the stored hypothesis is reset to score 0.0 and unapproved, the
input is attached, the status becomes PENDING and the input is returned. -/
theorem c2_apply_correction_invalid_witness :
    (apply_correction [corrInvalid] subjMath [hypFixed] 2).2 =
      updateStore [corrInvalid]
        { corrInvalid with
            hyps := corrInvalid.hyps.map (fun h => if h.suggested_by_reviewer then
              Item.presave { h with score := some ⟨0, 0⟩, approved := false } else h) ++
              [hypFixed]
            status := STATUS_PENDING } ∧
    (∀ h ∈ corrInvalid.hyps, h.suggested_by_reviewer = true →
      ({ h with score := some ⟨0, 1⟩, approved := false, suggested_by_reviewer := true } :
          Item) ∈
        corrInvalid.hyps.map (fun h => if h.suggested_by_reviewer then
          Item.presave { h with score := some ⟨0, 0⟩, approved := false } else h) ++
          [hypFixed]) ∧
    ([hypFixed] = ([] : List Item) →
      (apply_correction [corrInvalid] subjMath [hypFixed] 2).1 = subjMath) ∧
    ([hypFixed] ≠ ([] : List Item) →
      (apply_correction [corrInvalid] subjMath [hypFixed] 2).1 ∈ [hypFixed] ∧
      ∀ h ∈ [hypFixed],
        scoreKey h ≤ scoreKey (apply_correction [corrInvalid] subjMath [hypFixed] 2).1) :=
  c2_apply_correction_invalid [corrInvalid] subjMath [hypFixed] 2 corrInvalid
    (by decide) (by decide) (by decide) (by decide)
    (by
      simp only [corrInvalid, hypReviewer, hypFixed, List.map_cons, List.map_nil,
        if_pos, presave_reset]
      simp [normScoreOf, normalize_score_88, normalize_score_tenths 0 (by norm_num)
        (by norm_num)])

/-! ### The read-only resolver -/

/-- C9: the read-only resolver never mutates the store; it returns either
the subject value itself or the value of an approved hypothesis of a
matching APPROVED correction; whenever no matching APPROVED correction in
the store carries an approved hypothesis it returns the subject value (in
the source a lookup failure is also swallowed into this fallback); and
whenever the first matching APPROVED correction does carry the approved
hypothesis, that hypothesis's value is the one returned. -/
theorem c9_resolver_read_only (store : List Correction) (subject_value : String)
    (scope_id : Int) :
    (get_approved_correction_for_subject store subject_value scope_id).2 = store ∧
    ((get_approved_correction_for_subject store subject_value scope_id).1 = subject_value ∨
      ∃ c a, c ∈ store ∧ c.subject.value = subject_value ∧ c.scope_id = scope_id ∧
        c.status = STATUS_APPROVED ∧ a ∈ c.hyps ∧ a.approved = true ∧
        (get_approved_correction_for_subject store subject_value scope_id).1 = a.value) ∧
    ((∀ c ∈ store, c.subject.value = subject_value → c.scope_id = scope_id →
        c.status = STATUS_APPROVED → ∀ a ∈ c.hyps, a.approved = false) →
      (get_approved_correction_for_subject store subject_value scope_id).1 =
        subject_value) ∧
    (∀ c a, (store.filter (fun x =>
        decide (x.subject.value = subject_value) && decide (x.scope_id = scope_id) &&
          decide (x.status = STATUS_APPROVED))).head? = some c →
      a ∈ c.hyps → a.approved = true → (∀ x ∈ c.hyps, x.approved = true → x = a) →
      (get_approved_correction_for_subject store subject_value scope_id).1 = a.value) := by
  cases hm : (store.filter (fun c =>
      decide (c.subject.value = subject_value) && decide (c.scope_id = scope_id) &&
        decide (c.status = STATUS_APPROVED))).head? with
  | none =>
    have hred : get_approved_correction_for_subject store subject_value scope_id =
        (subject_value, store) := by
      unfold get_approved_correction_for_subject
      rw [hm]
    rw [hred]
    refine ⟨rfl, Or.inl rfl, fun _ => rfl, ?_⟩
    intro c a hhead
    cases hhead
  | some c =>
    have hred : get_approved_correction_for_subject store subject_value scope_id =
        (match firstApproved c.hyps with
         | some a => (a.value, store)
         | none => (subject_value, store)) := by
      unfold get_approved_correction_for_subject
      rw [hm]
    have hcmem0 : c ∈ store.filter (fun c =>
        decide (c.subject.value = subject_value) && decide (c.scope_id = scope_id) &&
          decide (c.status = STATUS_APPROVED)) :=
      List.mem_of_mem_head? (by rw [hm]; rfl)
    have hfc := List.mem_filter.mp hcmem0
    have hconds := hfc.2
    rw [Bool.and_eq_true, Bool.and_eq_true] at hconds
    have hsv : c.subject.value = subject_value := of_decide_eq_true hconds.1.1
    have hsid : c.scope_id = scope_id := of_decide_eq_true hconds.1.2
    have hstat : c.status = STATUS_APPROVED := of_decide_eq_true hconds.2
    cases hfa : firstApproved c.hyps with
    | none =>
      rw [hfa] at hred
      rw [hred]
      refine ⟨rfl, Or.inl rfl, fun _ => rfl, ?_⟩
      intro c' a hhead hmem happ huniq
      injection hhead with heq
      subst heq
      have hcon : firstApproved c.hyps = some a := firstApproved_eq_some _ _ hmem happ huniq
      rw [hfa] at hcon
      cases hcon
    | some a =>
      rw [hfa] at hred
      have hamem : a ∈ c.hyps := by
        have := List.mem_of_find?_eq_some hfa
        exact (List.mem_insertionSort hypGE).mp this
      have happr : a.approved = true := List.find?_some hfa
      rw [hred]
      refine ⟨rfl, Or.inr ⟨c, a, hfc.1, hsv, hsid, hstat, hamem, happr, rfl⟩, ?_, ?_⟩
      · intro hall
        exact absurd happr (by rw [hall c hfc.1 hsv hsid hstat a hamem]; simp)
      · intro c' a' hhead hmem' happ' huniq'
        injection hhead with heq
        subst heq
        have hcon : firstApproved c.hyps = some a' :=
          firstApproved_eq_some _ _ hmem' happ' huniq'
        rw [hfa] at hcon
        injection hcon with heq2
        rw [heq2]

/-- Witness for C9 on a concrete store: the approved hypothesis's value
("Pure Math") is returned for the matching scope, and the store comes back
unchanged. -/
theorem c9_resolver_read_only_witness :
    (get_approved_correction_for_subject [corrApproved] "Math" 1).2 = [corrApproved] ∧
    (get_approved_correction_for_subject [corrApproved] "Math" 1).1 = "Pure Math" :=
  ⟨(c9_resolver_read_only [corrApproved] "Math" 1).1,
    (c9_resolver_read_only [corrApproved] "Math" 1).2.2.2 corrApproved hypPure
      (by decide) (by decide) (by decide) (by decide)⟩

end VstuCorrections
